import Mathlib

/-!
# Verification of the PW Content Compliance Checker core engine

Shallow embedding of the service-layer logic of the repository
(`src/services/geminiService.ts` and `src/components/Dashboard.tsx`):
the three-tier match resolver, the collision-avoiding issue allocator,
the streaming JSON extractor, the paragraph chunker and the
fix-application engine.  JavaScript strings are modelled as `List Char`
(sequences of code points; every operation used by the code acts
per-code-unit), JS numbers that stay integral as `Int`/`Nat`.
-/

namespace PW

/-- JS `\w` character class used by the `\b` word-boundary assertion:
`[A-Za-z0-9_]`. -/
def isWordChar (c : Char) : Bool :=
  (97 ≤ c.toNat && c.toNat ≤ 122) || (65 ≤ c.toNat && c.toNat ≤ 90) ||
  (48 ≤ c.toNat && c.toNat ≤ 57) || c.toNat == 95

/-- JS `\s` character class (as used by `split(/\s+/)` and `[\s\r\n]+`):
ASCII whitespace plus the Unicode space separators recognised by
ECMAScript. -/
def isWsChar (c : Char) : Bool :=
  c.toNat == 32 || (9 ≤ c.toNat && c.toNat ≤ 13) || c.toNat == 0xa0 ||
  c.toNat == 0x1680 || (0x2000 ≤ c.toNat && c.toNat ≤ 0x200a) ||
  c.toNat == 0x2028 || c.toNat == 0x2029 || c.toNat == 0x202f ||
  c.toNat == 0x205f || c.toNat == 0x3000 || c.toNat == 0xfeff

/-- The (possibly empty) pattern `p` occurs in `c` starting at position `i`. -/
def substrAt (c p : List Char) (i : Nat) : Prop :=
  (c.drop i).take p.length = p

instance (c p : List Char) (i : Nat) : Decidable (substrAt c p i) := by
  unfold substrAt; exact inferInstance

theorem substrAt_le_length {c p : List Char} {i : Nat} (hp : p ≠ [])
    (h : substrAt c p i) : i + p.length ≤ c.length := by
  unfold substrAt at h
  by_contra hlt
  have hd := List.length_drop i c
  have := congrArg List.length h
  rw [List.length_take] at this
  have hne : 0 < p.length := List.length_pos.mpr hp
  omega

theorem substrAt_append {c s p : List Char} {i : Nat}
    (h : i + p.length ≤ c.length) :
    substrAt (c ++ s) p i ↔ substrAt c p i := by
  unfold substrAt
  rw [List.drop_append_of_le_length (by omega),
    List.take_append_of_le_length (by have := List.length_drop i c; omega)]

/-- Structural worker for `firstHit`: try positions `s, s+1, …` for `n`
steps. -/
def firstHitGo {α : Type} (f : Nat → Option α) : Nat → Nat → Option (Nat × α)
  | 0, _ => none
  | n + 1, s =>
    match f s with
    | some a => some (s, a)
    | none => firstHitGo f n (s + 1)

/-- Leftmost-search combinator: the first position `i` with
`s ≤ i ≤ bound` at which `f` fires, together with `f`'s payload.
Models a JS global-regex `exec` (or `indexOf`) scanning forward from
`lastIndex`. -/
def firstHit {α : Type} (f : Nat → Option α) (bound s : Nat) :
    Option (Nat × α) :=
  firstHitGo f (bound + 1 - s) s

theorem firstHitGo_eq_some {α : Type} {f : Nat → Option α} :
    ∀ {n s i : Nat} {a : α},
    firstHitGo f n s = some (i, a) ↔
      (s ≤ i ∧ i < s + n ∧ f i = some a ∧
        ∀ j, s ≤ j → j < i → f j = none) := by
  intro n
  induction n with
  | zero =>
    intro s i a
    constructor
    · intro hx; exact absurd hx (by simp [firstHitGo])
    · rintro ⟨h1, h2, _, _⟩; omega
  | succ n ih =>
    intro s i a
    rw [firstHitGo]
    cases hf : f s with
    | some b =>
      constructor
      · intro he
        obtain ⟨rfl, rfl⟩ : s = i ∧ b = a := by simpa using he
        exact ⟨le_rfl, by omega, hf, fun j h1 h2 => absurd h1 (by omega)⟩
      · rintro ⟨h1, h2, h3, h4⟩
        rcases Nat.eq_or_lt_of_le h1 with rfl | hlt
        · rw [hf] at h3
          obtain rfl := Option.some.inj h3
          rfl
        · exact absurd (h4 s le_rfl hlt) (by simp [hf])
    | none =>
      rw [ih]
      constructor
      · rintro ⟨h1, h2, h3, h4⟩
        refine ⟨by omega, by omega, h3, fun j hj hji => ?_⟩
        rcases Nat.eq_or_lt_of_le hj with rfl | hj'
        · exact hf
        · exact h4 j hj' hji
      · rintro ⟨h1, h2, h3, h4⟩
        have hne : s ≠ i := by
          rintro rfl
          rw [hf] at h3
          exact absurd h3 (by simp)
        exact ⟨by omega, by omega, h3, fun j hj hji => h4 j (by omega) hji⟩

theorem firstHitGo_eq_none {α : Type} {f : Nat → Option α} :
    ∀ {n s : Nat},
    firstHitGo f n s = none ↔ ∀ j, s ≤ j → j < s + n → f j = none := by
  intro n
  induction n with
  | zero =>
    intro s
    simp only [firstHitGo]
    constructor
    · intro _ j h1 h2; exact absurd h2 (by omega)
    · intro _; trivial
  | succ n ih =>
    intro s
    rw [firstHitGo]
    cases hf : f s with
    | some b =>
      constructor
      · intro hx; exact absurd hx (by simp)
      · intro hall
        exact absurd (hall s le_rfl (by omega)) (by simp [hf])
    | none =>
      rw [ih]
      constructor
      · intro hall j h1 h2
        rcases Nat.eq_or_lt_of_le h1 with rfl | h1'
        · exact hf
        · exact hall j h1' (by omega)
      · intro hall j h1 h2
        exact hall j (by omega) (by omega)

theorem firstHit_eq_some {α : Type} {f : Nat → Option α} {bound : Nat}
    {s i : Nat} {a : α} :
    firstHit f bound s = some (i, a) ↔
      (s ≤ i ∧ i ≤ bound ∧ f i = some a ∧
        ∀ j, s ≤ j → j < i → f j = none) := by
  rw [firstHit, firstHitGo_eq_some]
  constructor
  · rintro ⟨h1, h2, h3, h4⟩
    exact ⟨h1, by omega, h3, h4⟩
  · rintro ⟨h1, h2, h3, h4⟩
    exact ⟨h1, by omega, h3, h4⟩

theorem firstHit_eq_none {α : Type} {f : Nat → Option α} {bound : Nat}
    {s : Nat} :
    firstHit f bound s = none ↔ ∀ j, s ≤ j → j ≤ bound → f j = none := by
  rw [firstHit, firstHitGo_eq_none]
  constructor
  · intro hall j h1 h2
    exact hall j h1 (by omega)
  · intro hall j h1 h2
    exact hall j h1 (by omega)

/-! ## Match Resolver (`findMatch`, geminiService.ts lines 431-455) -/

/-- Structural worker for `wsSplit`; `cur` is the current
non-whitespace run, reversed. -/
def wsSplitGo (cur : List Char) : List Char → List (List Char)
  | [] => if cur = [] then [] else [cur.reverse]
  | c :: rest =>
    if isWsChar c then
      if cur = [] then wsSplitGo [] rest
      else cur.reverse :: wsSplitGo [] rest
    else wsSplitGo (c :: cur) rest

/-- `searchPhrase.split(/\s+/).filter(p => p.length > 0)`: the maximal
runs of non-whitespace characters of the phrase, in order. -/
def wsSplit (l : List Char) : List (List Char) :=
  wsSplitGo [] l

theorem wsSplitGo_mem : ∀ {l cur w : List Char},
    (∀ ch ∈ cur, isWsChar ch = false) → w ∈ wsSplitGo cur l →
    w ≠ [] ∧ ∀ ch ∈ w, isWsChar ch = false := by
  intro l
  induction l with
  | nil =>
    intro cur w hcur h
    rw [wsSplitGo] at h
    split at h
    · simp at h
    · rename_i hne
      rcases List.mem_singleton.mp h with rfl
      refine ⟨by simpa using hne, ?_⟩
      intro ch hch
      exact hcur ch (List.mem_reverse.mp hch)
  | cons c rest ih =>
    intro cur w hcur h
    rw [wsSplitGo] at h
    split at h
    · split at h
      · exact ih (by intro ch hch; simp at hch) h
      · rename_i hne
        rcases List.mem_cons.mp h with rfl | h'
        · refine ⟨by simpa using hne, ?_⟩
          intro ch hch
          exact hcur ch (List.mem_reverse.mp hch)
        · exact ih (by intro ch hch; simp at hch) h'
    · rename_i hws
      refine ih ?_ h
      intro ch hch
      rcases List.mem_cons.mp hch with rfl | hch'
      · simpa using hws
      · exact hcur ch hch'

theorem wsSplit_mem {l : List Char} {w : List Char} (h : w ∈ wsSplit l) :
    w ≠ [] ∧ ∀ ch ∈ w, isWsChar ch = false :=
  wsSplitGo_mem (by intro ch hch; simp at hch) h

/-- The character at position `i` is a `\w` word character (`false` off
the end of the string). -/
def wordAt (c : List Char) (i : Nat) : Bool :=
  match c.drop i with
  | [] => false
  | x :: _ => isWordChar x

/-- The JS `\b` word-boundary assertion holds at position `i`. -/
def boundaryAt (c : List Char) (i : Nat) : Bool :=
  (if i = 0 then false else wordAt c (i - 1)) != wordAt c i

/-- The pattern `\b<escaped phrase>\b` matches `c` at position `i`
(the phrase is regex-escaped in the source, so it matches literally). -/
def wordMatchAt (c p : List Char) (i : Nat) : Prop :=
  boundaryAt c i = true ∧ substrAt c p i ∧ boundaryAt c (i + p.length) = true

instance (c p : List Char) (i : Nat) : Decidable (wordMatchAt c p i) := by
  unfold wordMatchAt; exact inferInstance

/-- Length matched by the fuzzy pattern `w₁[\s\r\n]+w₂[\s\r\n]+…wₙ` at the
start of `s`.  The regex's greedy `[\s\r\n]+` gaps are deterministic here:
each part is non-empty and whitespace-free (it comes from `wsSplit`), so a
gap must consume exactly the maximal whitespace run — any shorter
consumption leaves a whitespace character where the next part's
non-whitespace first character is required. -/
def fuzzyLen (s : List Char) : List (List Char) → Option Nat
  | [] => none
  | [w] => if s.take w.length = w then some w.length else none
  | w :: ws =>
    if s.take w.length = w then
      let s1 := s.drop w.length
      let run := s1.takeWhile isWsChar
      if run.length = 0 then none
      else
        match fuzzyLen (s1.drop run.length) ws with
        | some n => some (w.length + run.length + n)
        | none => none
    else none

theorem fuzzyLen_le {s : List Char} {parts : List (List Char)} {n : Nat}
    (h : fuzzyLen s parts = some n) : n ≤ s.length := by
  induction parts generalizing s n with
  | nil => simp [fuzzyLen] at h
  | cons w ws ih =>
    cases ws with
    | nil =>
      rw [fuzzyLen] at h
      split at h
      · rename_i htake
        obtain rfl := Option.some.inj h
        have := congrArg List.length htake
        rw [List.length_take] at this
        omega
      · exact absurd h (by simp)
    | cons w2 ws2 =>
      simp only [fuzzyLen] at h
      split at h
      · rename_i htake
        split at h
        · exact absurd h (by simp)
        · rename_i hrun
          split at h
          · rename_i m hm
            obtain rfl := Option.some.inj h
            have h1 := ih hm
            have h2 := congrArg List.length htake
            rw [List.length_take] at h2
            have h3 : (s.drop w.length).length = s.length - w.length :=
              List.length_drop _ _
            have h4 : ((s.drop w.length).takeWhile isWsChar).length ≤
                (s.drop w.length).length :=
              (List.takeWhile_sublist isWsChar).length_le
            have h5 : ((s.drop w.length).drop
                ((s.drop w.length).takeWhile isWsChar).length).length =
                (s.drop w.length).length -
                  ((s.drop w.length).takeWhile isWsChar).length :=
              List.length_drop _ _
            omega
          · exact absurd h (by simp)
      · exact absurd h (by simp)

theorem fuzzyLen_pos {s : List Char} {parts : List (List Char)} {n : Nat}
    (hparts : ∀ w ∈ parts, w ≠ []) (hne : parts ≠ [])
    (h : fuzzyLen s parts = some n) : 1 ≤ n := by
  cases parts with
  | nil => exact absurd rfl hne
  | cons w ws =>
    have hw : w ≠ [] := hparts w (by simp)
    have hwlen : 1 ≤ w.length := List.length_pos.mpr hw
    cases ws with
    | nil =>
      rw [fuzzyLen] at h
      split at h
      · obtain rfl := Option.some.inj h; omega
      · exact absurd h (by simp)
    | cons w2 ws2 =>
      simp only [fuzzyLen] at h
      split at h
      · split at h
        · exact absurd h (by simp)
        · split at h
          · obtain rfl := Option.some.inj h; omega
          · exact absurd h (by simp)
      · exact absurd h (by simp)

/-- Tier 1 of `findMatch`: `new RegExp('\\b' + escaped + '\\b', 'g')` with
`lastIndex = startFrom`. -/
def tier1 (c p : List Char) (s : Nat) : Option (Nat × Nat) :=
  firstHit (fun i => if wordMatchAt c p i then some p.length else none)
    c.length s

/-- Tier 2 of `findMatch`: `content.indexOf(searchPhrase, startFrom)`
(JS clamps the start position to the string length). -/
def tier2 (c p : List Char) (s : Nat) : Option (Nat × Nat) :=
  firstHit (fun i => if substrAt c p i then some p.length else none)
    c.length (min s c.length)

/-- Tier 3 of `findMatch`: the whitespace-normalized fuzzy pattern
`parts.map(escapeRegExp).join('[\\s\\r\\n]+')` with `lastIndex = startFrom`
(`null` when the phrase has no words). -/
def tier3 (c p : List Char) (s : Nat) : Option (Nat × Nat) :=
  if wsSplit p = [] then none
  else firstHit (fun i => fuzzyLen (c.drop i) (wsSplit p)) c.length s

/-- `findMatch` (geminiService.ts 431-455): the three tiers in strict
priority order.  Regex construction cannot throw after `escapeRegExp`, so
the source's `try`/`catch` fallbacks are dead paths. -/
def findMatch (content searchPhrase : List Char) (startFrom : Nat) :
    Option (Nat × Nat) :=
  match tier1 content searchPhrase startFrom with
  | some r => some r
  | none =>
    match tier2 content searchPhrase startFrom with
    | some r => some r
    | none => tier3 content searchPhrase startFrom

theorem findMatch_start_le {c p : List Char} {s i l : Nat}
    (hs : s ≤ c.length) (h : findMatch c p s = some (i, l)) : s ≤ i := by
  unfold findMatch at h
  split at h
  · rename_i r h1
    obtain rfl := Option.some.inj h
    exact (firstHit_eq_some.mp h1).1
  · split at h
    · rename_i r h2
      obtain rfl := Option.some.inj h
      have := (firstHit_eq_some.mp h2).1
      omega
    · unfold tier3 at h
      split at h
      · exact absurd h (by simp)
      · exact (firstHit_eq_some.mp h).1

theorem findMatch_bounds {c p : List Char} {s i l : Nat} (hp : p ≠ [])
    (h : findMatch c p s = some (i, l)) :
    1 ≤ l ∧ i + l ≤ c.length := by
  have hplen : 1 ≤ p.length := List.length_pos.mpr hp
  unfold findMatch at h
  split at h
  · rename_i r h1
    obtain rfl := Option.some.inj h
    obtain ⟨_, _, hf, _⟩ := firstHit_eq_some.mp h1
    split at hf
    · rename_i hm
      obtain rfl := Option.some.inj hf
      exact ⟨hplen, substrAt_le_length hp hm.2.1⟩
    · exact absurd hf (by simp)
  · split at h
    · rename_i r h2
      obtain rfl := Option.some.inj h
      obtain ⟨_, _, hf, _⟩ := firstHit_eq_some.mp h2
      split at hf
      · rename_i hm
        obtain rfl := Option.some.inj hf
        exact ⟨hplen, substrAt_le_length hp hm⟩
      · exact absurd hf (by simp)
    · unfold tier3 at h
      split at h
      · exact absurd h (by simp)
      · rename_i hsplit
        obtain ⟨_, hle, hf, _⟩ := firstHit_eq_some.mp h
        refine ⟨fuzzyLen_pos (fun w hw => (wsSplit_mem hw).1) hsplit hf, ?_⟩
        have := fuzzyLen_le hf
        have hd := List.length_drop i c
        omega

/-! ## Data model (`src/types.ts`) -/

inductive Severity where
  | CRITICAL
  | WARNING
  | SUGGESTION
deriving DecidableEq, Repr

inductive Status where
  | pending
  | fixed
  | ignored
deriving DecidableEq, Repr

/-- A raw, offset-less issue record from the model's JSON. -/
structure RawIssue where
  originalText : List Char
  category : List Char
  severity : Severity
  explanation : List Char
  suggestion : List Char
  guidelineRef : List Char
deriving DecidableEq, Repr

/-- A resolved issue (`Issue` in types.ts).  `startIndex`/`endIndex` are
optional in the source (`startIndex?: number`) and may become negative
after shifting, hence `Option Int`. -/
structure Issue where
  id : String
  line : Nat
  originalText : List Char
  category : List Char
  severity : Severity
  explanation : List Char
  suggestion : List Char
  guidelineRef : List Char
  status : Status
  startIndex : Option Int
  endIndex : Option Int
deriving DecidableEq, Repr

structure Summary where
  critical : Nat
  warning : Nat
  suggestion : Nat
  total : Nat
deriving DecidableEq, Repr

/-- `AnalysisResult`; the ISO timestamp string is represented by the
millisecond value it is rendered from. -/
structure AnalysisResult where
  issues : List Issue
  summary : Summary
  cleanContent : List Char
  timestamp : Nat
deriving DecidableEq, Repr

/-! ## Shared helpers (geminiService.ts lines 350-429, 457-460) -/

/-- Clamp a JS slice argument: negative values count from the end,
and the result is clamped to `[0, len]`. -/
def jsIdx (len : Nat) (i : Int) : Nat :=
  if i < 0 then len - min (-i).toNat len else min i.toNat len

/-- JS `str.slice(a, b)` (two-argument form). -/
def intSlice (l : List Char) (a b : Int) : List Char :=
  (l.take (jsIdx l.length b)).drop (jsIdx l.length a)

/-- JS `str.slice(a)` (one-argument form). -/
def intSliceFrom (l : List Char) (a : Int) : List Char :=
  l.drop (jsIdx l.length a)

/-- `calculateSummary` (lines 354-361): counts by severity over all
issues, regardless of status. -/
def calculateSummary (issues : List Issue) : Summary :=
  { critical := (issues.filter (fun i => i.severity = Severity.CRITICAL)).length
    warning := (issues.filter (fun i => i.severity = Severity.WARNING)).length
    suggestion :=
      (issues.filter (fun i => i.severity = Severity.SUGGESTION)).length
    total := issues.length }

/-- `calculateLineNumber` (lines 457-460):
`fullText.substring(0, startIndex).split('\n').length`, or 1 when
`startIndex` is out of range. -/
def calculateLineNumber (fullText : List Char) (startIndex : Nat) : Nat :=
  if startIndex < fullText.length then
    (fullText.take startIndex).count '\n' + 1
  else 1

/-- Insert into a list already stably sorted by
`startIndex || 0` ascending, after all equal keys. -/
def insertByStart (key : Issue → Int) (x : Issue) :
    List Issue → List Issue
  | [] => [x]
  | y :: ys => if key x < key y then x :: y :: ys
               else y :: insertByStart key x ys

/-- `sortIssues` (lines 350-352): JS `Array.prototype.sort` with the
comparator `(a.startIndex || 0) - (b.startIndex || 0)`.  JS sort is
stable, and a stable sort's output is determined by the key order alone,
so insertion sort computes the same list. -/
def sortIssues (issues : List Issue) : List Issue :=
  issues.foldr (insertByStart (fun i => i.startIndex.getD 0)) []

/-- `generateCleanContent` (lines 416-429). -/
def generateCleanContent (originalContent : List Char)
    (issues : List Issue) : List Char :=
  let sorted := sortIssues (issues.filter (fun i => i.startIndex.isSome))
  let step := fun (st : List Char × Int) (issue : Issue) =>
    if issue.startIndex.getD 0 < st.2 then st
    else
      (st.1 ++ intSlice originalContent st.2 (issue.startIndex.getD 0) ++
        issue.suggestion,
       issue.endIndex.getD 0)
  let fin := sorted.foldl step ([], 0)
  fin.1 ++ intSliceFrom originalContent fin.2

/-! ## Issue Allocator (`processRawIssues`, geminiService.ts lines 363-414) -/

/-- The candidate range `[found, found+len)` hits an already-claimed
index (`usedIndices.has(i)` loop, lines 382-384). -/
def collides (used : List Nat) (found len : Nat) : Bool :=
  (List.range' found len).any (fun i => used.contains i)

/-- Structural worker for `searchLoop`.  The fuel starts at
`content.length - pos` and never runs out while `pos < content.length`:
`findMatch` only returns candidates at or after `pos`, so each iteration
advances `pos` by at least one. -/
def searchGo (content phrase : List Char) (used : List Nat) :
    Nat → Nat → Option (Nat × Nat)
  | 0, _ => none
  | fuel + 1, pos =>
    if pos < content.length then
      match findMatch content phrase pos with
      | none => none
      | some (found, len) =>
        if collides used found len then
          searchGo content phrase used fuel (found + 1)
        else some (found, len)
    else none

/-- The allocator's inner `while (pos < content.length)` loop
(lines 375-393): call `findMatch` from `pos`, skip past colliding
candidates, stop at the first non-colliding one. -/
def searchLoop (content phrase : List Char) (used : List Nat)
    (pos : Nat) : Option (Nat × Nat) :=
  searchGo content phrase used (content.length - pos) pos

/-- The `ResolvedIssue` emitted for raw record `r` at input position
`idx` once the range `[start, start+len)` is claimed (lines 395-405). -/
def mkIssue (content : List Char) (timestamp idx : Nat) (r : RawIssue)
    (start len : Nat) : Issue :=
  { id := "issue-" ++ toString timestamp ++ "-" ++ toString idx
    line := calculateLineNumber content start
    originalText := r.originalText
    category := r.category
    severity := r.severity
    explanation := r.explanation
    suggestion := r.suggestion
    guidelineRef := r.guidelineRef
    status := .pending
    startIndex := some (start : Int)
    endIndex := some ((start + len : Nat) : Int) }

/-- The allocator's `rawIssues.forEach` fold, threading the input
position and the `usedIndices` set. -/
def allocGo (content : List Char) (timestamp : Nat) :
    List RawIssue → Nat → List Nat → List Issue
  | [], _, _ => []
  | r :: rest, idx, used =>
    if r.originalText = [] then
      allocGo content timestamp rest (idx + 1) used
    else
      match searchLoop content r.originalText used 0 with
      | none => allocGo content timestamp rest (idx + 1) used
      | some (start, len) =>
        mkIssue content timestamp idx r start len ::
          allocGo content timestamp rest (idx + 1)
            (used ++ List.range' start len)

/-- `processRawIssues` (lines 363-414). -/
def processRawIssues (rawIssues : List RawIssue) (content : List Char)
    (timestamp : Nat) : AnalysisResult :=
  let issues := allocGo content timestamp rawIssues 0 []
  { issues := issues
    summary := calculateSummary issues
    cleanContent := generateCleanContent content issues
    timestamp := timestamp }

/-! ## Fix Application Engine (`handleApplyFix`, Dashboard.tsx lines 298-357) -/

/-- The two user-facing error messages `handleApplyFix` can set. -/
inductive FixError where
  | invalidIssueData
  | syncDrift
deriving DecidableEq, Repr

/-- The Dashboard state touched by `handleApplyFix`: the analyzed
document, the current result, and the error banner. -/
structure DashState where
  analyzedContent : List Char
  result : AnalysisResult
  errorMsg : Option FixError
deriving DecidableEq, Repr

/-- Decrement one severity bucket of the summary if it is positive
(lines 347-351); `total` is left untouched.  With `Nat` counters the
`> 0` guard coincides with truncated subtraction. -/
def decrementSeverity (s : Summary) : Severity → Summary
  | .CRITICAL => { s with critical := s.critical - 1 }
  | .WARNING => { s with warning := s.warning - 1 }
  | .SUGGESTION => { s with suggestion := s.suggestion - 1 }

/-- `handleApplyFix` (Dashboard.tsx lines 298-357).  The caller passes a
(possibly stale) copy of the issue; the current issue is looked up by
`id`.  Note the summary decrement uses the *argument's* severity but the
*current* issue's prior status, exactly as the source does. -/
def handleApplyFix (st : DashState) (issue : Issue) : DashState :=
  match st.result.issues.find? (fun i => i.id == issue.id) with
  | none => { st with errorMsg := some .invalidIssueData }
  | some currentIssue =>
    match currentIssue.startIndex, currentIssue.endIndex with
    | some s, some e =>
      let targetText := intSlice st.analyzedContent s e
      if targetText = currentIssue.originalText then
        let newContent := intSlice st.analyzedContent 0 s ++
          currentIssue.suggestion ++ intSliceFrom st.analyzedContent e
        let lengthDiff : Int := (currentIssue.suggestion.length : Int) - (e - s)
        let updatedIssues := st.result.issues.map (fun i =>
          if i.id == issue.id then { i with status := .fixed }
          else
            match i.startIndex with
            | some si =>
              if s < si then
                { i with startIndex := some (si + lengthDiff),
                         endIndex := some (i.endIndex.getD 0 + lengthDiff) }
              else i
            | none => i)
        let newSummary :=
          if currentIssue.status ≠ Status.fixed then
            decrementSeverity st.result.summary issue.severity
          else st.result.summary
        { analyzedContent := newContent
          result := { st.result with issues := updatedIssues,
                                     summary := newSummary }
          errorMsg := none }
      else
        { st with
          errorMsg := some .syncDrift
          result := { st.result with
            issues := st.result.issues.map (fun i =>
              if i.id == issue.id then { i with status := .ignored } else i) } }
    | _, _ => { st with errorMsg := some .invalidIssueData }

/-! ## Chunk Coordinator (`splitContent`, geminiService.ts lines 176-200) -/

/-- `private readonly CHUNK_SIZE = 100000`. -/
def CHUNK_SIZE : Nat := 100000

structure Chunk where
  text : List Char
  offset : Nat
deriving DecidableEq, Repr

/-- Worker for `content.split(/(\n\n+)/)`; `cur` holds the pending
non-separator segment in reverse. -/
def paraGo (cur : List Char) (l : List Char) : List (List Char) :=
  match l with
  | [] => [cur.reverse]
  | '\n' :: '\n' :: rest =>
    cur.reverse ::
      ('\n' :: '\n' :: rest.takeWhile (fun c => c == '\n')) ::
        paraGo [] (rest.dropWhile (fun c => c == '\n'))
  | c :: cs => paraGo (c :: cur) cs
termination_by l.length
decreasing_by
  · have := (List.dropWhile_sublist (l := rest)
      (p := fun c => c == '\n')).length_le
    simp only [List.length_cons]; omega
  · simp only [List.length_cons]; omega

/-- `content.split(/(\n\n+)/)`: the document cut at runs of two or more
newlines, with the captured separators kept as elements (greedy `\n\n+`
matches are exactly the maximal newline runs of length ≥ 2). -/
def splitParas (content : List Char) : List (List Char) :=
  paraGo [] content

/-- The accumulation loop of `splitContent` (lines 185-197). -/
def splitGo : List (List Char) → Nat → List Char → List Chunk
  | [], off, cur => if cur.length > 0 then [⟨cur, off⟩] else []
  | part :: rest, off, cur =>
    if cur.length + part.length > CHUNK_SIZE ∧ cur.length > 0 then
      ⟨cur, off⟩ :: splitGo rest (off + cur.length) part
    else splitGo rest off (cur ++ part)

/-- `splitContent` (lines 176-200). -/
def splitContent (content : List Char) : List Chunk :=
  splitGo (splitParas content) 0 []

/-! ## Streaming JSON Extractor (`extractIssuesFromStream`, lines 286-348)

`JSON.parse` is modelled by a full JSON validator/parser.  String
escapes are validated but left undecoded and number lexemes are kept as
their character syntax: the extractor's callers only pass the parsed
objects along, so this representation is faithful up to the (injective
on valid input) decoding step, and the claims under verification never
inspect decoded values. -/

inductive Json where
  | null
  | bool (b : Bool)
  | num (lexeme : List Char)
  | str (raw : List Char)
  | arr (elems : List Json)
  | obj (members : List (List Char × Json))

/-- JSON insignificant whitespace. -/
def jsonWs (c : Char) : Bool :=
  c == ' ' || c == '\t' || c == '\n' || c == '\r'

def skipWs (s : List Char) : List Char := s.dropWhile jsonWs

def isDigit (c : Char) : Bool := 48 ≤ c.toNat && c.toNat ≤ 57

def isHexDigit (c : Char) : Bool :=
  isDigit c || (97 ≤ c.toNat && c.toNat ≤ 102) ||
    (65 ≤ c.toNat && c.toNat ≤ 70)

/-- Lex a JSON string body after the opening quote; returns the raw
(undecoded but validated) body and the remainder after the closing
quote. -/
def lexString : List Char → Option (List Char × List Char)
  | [] => none
  | c :: rest =>
    if c == '"' then some ([], rest)
    else if c == '\\' then
      match rest with
      | [] => none
      | e :: rest2 =>
        if e == '"' || e == '\\' || e == '/' || e == 'b' || e == 'f' ||
            e == 'n' || e == 'r' || e == 't' then
          match lexString rest2 with
          | some (body, rem) => some ('\\' :: e :: body, rem)
          | none => none
        else if e == 'u' then
          match rest2 with
          | h1 :: h2 :: h3 :: h4 :: rest3 =>
            if isHexDigit h1 && isHexDigit h2 && isHexDigit h3 &&
                isHexDigit h4 then
              match lexString rest3 with
              | some (body, rem) =>
                some ('\\' :: 'u' :: h1 :: h2 :: h3 :: h4 :: body, rem)
              | none => none
            else none
          | _ => none
        else none
    else if c.toNat < 32 then none
    else
      match lexString rest with
      | some (body, rem) => some (c :: body, rem)
      | none => none

/-- Lex the optional fraction part `.digits`. -/
def lexFrac : List Char → Option (List Char × List Char)
  | '.' :: r =>
    if (r.takeWhile isDigit).length = 0 then none
    else some ('.' :: r.takeWhile isDigit, r.dropWhile isDigit)
  | s => some ([], s)

/-- Lex the optional exponent part `[eE][+-]?digits`. -/
def lexExp : List Char → Option (List Char × List Char)
  | e :: r =>
    if e == 'e' || e == 'E' then
      let signAndRest : List Char × List Char :=
        match r with
        | '+' :: rr => (['+'], rr)
        | '-' :: rr => (['-'], rr)
        | _ => ([], r)
      if (signAndRest.2.takeWhile isDigit).length = 0 then none
      else some (e :: signAndRest.1 ++ signAndRest.2.takeWhile isDigit,
        signAndRest.2.dropWhile isDigit)
    else some ([], e :: r)
  | [] => some ([], [])

/-- Lex a JSON number `-?(0|[1-9]digits)(.digits)?([eE][+-]?digits)?`. -/
def lexNumber (s : List Char) : Option (List Char × List Char) :=
  let signAndRest : List Char × List Char :=
    match s with
    | '-' :: r => (['-'], r)
    | _ => ([], s)
  match signAndRest.2 with
  | [] => none
  | c :: r =>
    if c == '0' then
      match lexFrac r with
      | none => none
      | some (fr, r2) =>
        match lexExp r2 with
        | none => none
        | some (ex, r3) => some (signAndRest.1 ++ [c] ++ fr ++ ex, r3)
    else if isDigit c then
      match lexFrac (r.dropWhile isDigit) with
      | none => none
      | some (fr, r2) =>
        match lexExp r2 with
        | none => none
        | some (ex, r3) =>
          some (signAndRest.1 ++ [c] ++ r.takeWhile isDigit ++ fr ++ ex, r3)
    else none

/-- The parser's mode: a plain value, or the element/member loop of a
non-empty array/object with its accumulator. -/
inductive PMode where
  | value
  | elems (acc : List Json)
  | members (acc : List (List Char × Json))

/-- Recursive-descent JSON parser, structural on its fuel so that it
evaluates by kernel reduction.  On the budget `jsonParse` supplies the
fuel never runs out: every two fuel units spent consume at least one
input character. -/
def parseGo : Nat → PMode → List Char → Option (Json × List Char)
  | 0, _, _ => none
  | fuel + 1, .value, s =>
    match skipWs s with
    | [] => none
    | c :: rest =>
      if c == '"' then
        match lexString rest with
        | some (body, rem) => some (.str body, rem)
        | none => none
      else if c == '{' then
        match skipWs rest with
        | '}' :: rem => some (.obj [], rem)
        | _ => parseGo fuel (.members []) rest
      else if c == '[' then
        match skipWs rest with
        | ']' :: rem => some (.arr [], rem)
        | _ => parseGo fuel (.elems []) rest
      else if c == 't' then
        match rest with
        | 'r' :: 'u' :: 'e' :: rem => some (.bool true, rem)
        | _ => none
      else if c == 'f' then
        match rest with
        | 'a' :: 'l' :: 's' :: 'e' :: rem => some (.bool false, rem)
        | _ => none
      else if c == 'n' then
        match rest with
        | 'u' :: 'l' :: 'l' :: rem => some (.null, rem)
        | _ => none
      else
        match lexNumber (c :: rest) with
        | some (body, rem) => some (.num body, rem)
        | none => none
  | fuel + 1, .elems acc, s =>
    match parseGo fuel .value s with
    | none => none
    | some (v, rem) =>
      match skipWs rem with
      | ',' :: rem2 => parseGo fuel (.elems (acc ++ [v])) rem2
      | ']' :: rem2 => some (.arr (acc ++ [v]), rem2)
      | _ => none
  | fuel + 1, .members acc, s =>
    match skipWs s with
    | '"' :: rest =>
      match lexString rest with
      | none => none
      | some (key, rem) =>
        match skipWs rem with
        | ':' :: rem2 =>
          match parseGo fuel .value rem2 with
          | none => none
          | some (v, rem3) =>
            match skipWs rem3 with
            | ',' :: rem4 => parseGo fuel (.members (acc ++ [(key, v)])) rem4
            | '}' :: rem4 => some (.obj (acc ++ [(key, v)]), rem4)
            | _ => none
        | _ => none
    | _ => none

/-- `JSON.parse`: the whole input must be one value plus trailing
whitespace.  The fuel `2 * length + 2` dominates the recursion depth
(every two fuel units consumed correspond to at least one input
character consumed). -/
def jsonParse (s : List Char) : Option Json :=
  match parseGo (2 * s.length + 2) .value s with
  | some (v, rem) => if skipWs rem = [] then some v else none
  | none => none

/-- `obj && typeof obj === 'object'` — the truthiness/typeof validation
applied to each candidate (line 332). -/
def isObjLike : Json → Bool
  | .obj _ => true
  | .arr _ => true
  | _ => false

/-- The extractor's per-character scan state: candidate characters are
collected in reverse in `cur` (the source tracks `startIndex` and slices
later, which collects exactly the same span). -/
structure ScanState where
  done : Bool
  inString : Bool
  isEscaped : Bool
  braceCount : Int
  cur : Option (List Char)
  acc : List Json

def addCur (cur : Option (List Char)) (c : Char) : Option (List Char) :=
  match cur with
  | some l => some (c :: l)
  | none => none

/-- One iteration of the extractor's character loop (lines 301-345). -/
def scanStep (st : ScanState) (c : Char) : ScanState :=
  if st.done then st
  else if st.isEscaped then
    { st with isEscaped := false, cur := addCur st.cur c }
  else if c == '\\' then
    { st with isEscaped := true, cur := addCur st.cur c }
  else if c == '"' then
    { st with inString := !st.inString, cur := addCur st.cur c }
  else if !st.inString then
    if c == '{' then
      if st.braceCount == 0 then
        { st with braceCount := st.braceCount + 1, cur := some ['{'] }
      else
        { st with braceCount := st.braceCount + 1, cur := addCur st.cur c }
    else if c == '}' then
      match st.cur with
      | some l =>
        if st.braceCount - 1 == 0 then
          let acc' :=
            match jsonParse (('}' :: l).reverse) with
            | some v => if isObjLike v then st.acc ++ [v] else st.acc
            | none => st.acc
          { st with braceCount := st.braceCount - 1, cur := none, acc := acc' }
        else
          { st with braceCount := st.braceCount - 1, cur := some ('}' :: l) }
      | none => { st with braceCount := st.braceCount - 1 }
    else if c == ']' && st.braceCount == 0 then
      { st with done := true }
    else { st with cur := addCur st.cur c }
  else { st with cur := addCur st.cur c }

/-- JS `hay.indexOf(pat, start)` (clamped start; first occurrence). -/
def strIndexOf (hay pat : List Char) (start : Nat) : Option Nat :=
  (firstHit (fun i => if substrAt hay pat i then some () else none)
    hay.length (min start hay.length)).map Prod.fst

/-- `extractIssuesFromStream` (lines 286-348). -/
def extractIssuesFromStream (text : List Char) : List Json :=
  match strIndexOf text "\"issues\"".data 0 with
  | none => []
  | some markerIndex =>
    match strIndexOf text ['['] markerIndex with
    | none => []
    | some arrayStart =>
      ((text.drop (arrayStart + 1)).foldl scanStep
        ⟨false, false, false, 0, none, []⟩).acc

/-! ## Claim C9: splitContent partitions the document -/

/-- Specification-side: the expected offsets of a chunk list — each
chunk starts where the previous one ended. -/
def offsetsFrom (n : Nat) : List (List Char) → List Nat
  | [] => []
  | t :: rest => n :: offsetsFrom (n + t.length) rest

theorem paraGo_flatten : ∀ (cur l : List Char),
    (paraGo cur l).flatten = cur.reverse ++ l := by
  intro cur l
  induction cur, l using paraGo.induct with
  | case1 cur =>
    simp [paraGo]
  | case2 cur rest ih =>
    rw [paraGo]
    simp only [List.flatten_cons]
    rw [ih]
    simp only [List.reverse_nil, List.nil_append, List.cons_append,
      List.append_assoc]
    simp [List.takeWhile_append_dropWhile]
  | case3 cur c cs hne ih =>
    rw [paraGo]
    · rw [ih]
      simp
    · exact hne

theorem splitParas_flatten (content : List Char) :
    (splitParas content).flatten = content := by
  unfold splitParas
  simpa using paraGo_flatten [] content

theorem splitGo_spec : ∀ (parts : List (List Char)) (off : Nat)
    (cur : List Char),
    ((splitGo parts off cur).map Chunk.text).flatten = cur ++ parts.flatten ∧
    (∀ ch ∈ splitGo parts off cur, ch.text ≠ []) ∧
    (splitGo parts off cur).map Chunk.offset =
      offsetsFrom off ((splitGo parts off cur).map Chunk.text) := by
  intro parts
  induction parts with
  | nil =>
    intro off cur
    rw [splitGo]
    split
    · rename_i hpos
      refine ⟨by simp, ?_, by simp [offsetsFrom]⟩
      intro ch hch
      rcases List.mem_singleton.mp hch with rfl
      simp only [ne_eq]
      intro hcur
      rw [hcur] at hpos
      simp at hpos
    · rename_i hpos
      have : cur = [] := by
        have : cur.length = 0 := by omega
        exact List.length_eq_zero.mp this
      subst this
      exact ⟨by simp, by simp, by simp [offsetsFrom]⟩
  | cons part rest ih =>
    intro off cur
    rw [splitGo]
    split
    · rename_i hcond
      obtain ⟨ih1, ih2, ih3⟩ := ih (off + cur.length) part
      refine ⟨?_, ?_, ?_⟩
      · simp only [List.map_cons, List.flatten_cons]
        rw [ih1]
      · intro ch hch
        rcases List.mem_cons.mp hch with rfl | hch'
        · simp only [ne_eq]
          intro hcur
          rw [hcur] at hcond
          simp at hcond
        · exact ih2 ch hch'
      · simp only [List.map_cons, offsetsFrom]
        rw [ih3]
    · obtain ⟨ih1, ih2, ih3⟩ := ih off (cur ++ part)
      refine ⟨?_, ih2, ih3⟩
      rw [ih1]
      simp [List.append_assoc]

/-- **C9** — For every document, the chunks returned by `splitContent`
have non-empty text, their texts concatenated in input order restore the
document exactly, and each chunk's offset is the total length of the
preceding chunks' texts (so chunks cover disjoint contiguous ranges and
the paragraph split loses no characters). -/
theorem splitContent_partition (content : List Char) :
    ((splitContent content).map Chunk.text).flatten = content ∧
    (splitContent content).all (fun ch => !ch.text.isEmpty) = true ∧
    (splitContent content).map Chunk.offset =
      offsetsFrom 0 ((splitContent content).map Chunk.text) := by
  obtain ⟨h1, h2, h3⟩ := splitGo_spec (splitParas content) 0 []
  refine ⟨?_, ?_, h3⟩
  · unfold splitContent
    rw [h1]
    simpa using splitParas_flatten content
  · rw [List.all_eq_true]
    intro ch hch
    have := h2 ch hch
    simpa [List.isEmpty_iff] using this

/-! ## Claims C1 and C10: allocator invariants -/

/-- Two resolved issues occupy disjoint half-open ranges. -/
def IssuesDisjoint (a b : Issue) : Prop :=
  ∀ s1 e1 s2 e2 : Int, a.startIndex = some s1 → a.endIndex = some e1 →
    b.startIndex = some s2 → b.endIndex = some e2 → e1 ≤ s2 ∨ e2 ≤ s1

theorem collides_eq_false {used : List Nat} {start len : Nat} :
    collides used start len = false ↔
      ∀ j, start ≤ j → j < start + len → j ∉ used := by
  unfold collides
  rw [List.any_eq_false]
  constructor
  · intro hall j h1 h2 hmem
    have := hall j (by rw [List.mem_range'_1]; omega)
    exact this (List.elem_iff.mpr hmem)
  · intro hall j hj
    rw [List.mem_range'_1] at hj
    intro hc
    exact hall j (by omega) (by omega) (List.elem_iff.mp hc)

theorem searchGo_some {content phrase : List Char} {used : List Nat} :
    ∀ {fuel pos start len : Nat},
    searchGo content phrase used fuel pos = some (start, len) →
    (∃ p, findMatch content phrase p = some (start, len)) ∧
    collides used start len = false := by
  intro fuel
  induction fuel with
  | zero =>
    intro pos start len h
    exact absurd h (by simp [searchGo])
  | succ fuel ih =>
    intro pos start len h
    rw [searchGo] at h
    split at h
    · split at h
      · exact absurd h (by simp)
      · rename_i found flen hfm
        split at h
        · exact ih h
        · rename_i hcol
          obtain ⟨rfl, rfl⟩ : found = start ∧ flen = len := by simpa using h
          exact ⟨⟨pos, hfm⟩, by simpa using hcol⟩
    · exact absurd h (by simp)

theorem searchLoop_some {content phrase : List Char} {used : List Nat}
    {pos start len : Nat}
    (h : searchLoop content phrase used pos = some (start, len)) :
    (∃ p, findMatch content phrase p = some (start, len)) ∧
    ∀ j, start ≤ j → j < start + len → j ∉ used := by
  obtain ⟨h1, h2⟩ := searchGo_some h
  exact ⟨h1, collides_eq_false.mp h2⟩

theorem calculateLineNumber_pos (c : List Char) (s : Nat) :
    1 ≤ calculateLineNumber c s := by
  unfold calculateLineNumber
  split <;> omega

/-- Everything the allocator guarantees about each emitted issue, plus
the pairwise-disjointness of the emitted ranges. -/
theorem allocGo_invariant (content : List Char) (ts : Nat) :
    ∀ (raws : List RawIssue) (idx : Nat) (used : List Nat),
    (∀ i ∈ allocGo content ts raws idx used,
      ∃ s l : Nat, i.startIndex = some (s : Int) ∧
        i.endIndex = some ((s + l : Nat) : Int) ∧ 1 ≤ l ∧
        s + l ≤ content.length ∧ i.status = .pending ∧ 1 ≤ i.line ∧
        (∀ j, s ≤ j → j < s + l → j ∉ used) ∧
        (∃ p, findMatch content i.originalText p = some (s, l))) ∧
    List.Pairwise IssuesDisjoint (allocGo content ts raws idx used) := by
  intro raws
  induction raws with
  | nil =>
    intro idx used
    simp [allocGo]
  | cons r rest ih =>
    intro idx used
    rw [allocGo]
    split
    · exact ih (idx + 1) used
    · rename_i hne
      split
      · exact ih (idx + 1) used
      · rename_i start len hsl
        obtain ⟨⟨p, hfm⟩, hfree⟩ := searchLoop_some hsl
        have hb := findMatch_bounds (p := r.originalText) hne hfm
        obtain ⟨ihmem, ihpw⟩ := ih (idx + 1) (used ++ List.range' start len)
        constructor
        · intro i hi
          rcases List.mem_cons.mp hi with rfl | hi'
          · refine ⟨start, len, rfl, rfl, hb.1, hb.2, rfl,
              calculateLineNumber_pos content start, hfree, ⟨p, hfm⟩⟩
          · obtain ⟨s, l, h1, h2, h3, h4, h5, h6, h7, h8⟩ := ihmem i hi'
            refine ⟨s, l, h1, h2, h3, h4, h5, h6, ?_, h8⟩
            intro j hj1 hj2 hjmem
            exact h7 j hj1 hj2 (List.mem_append_left _ hjmem)
        · rw [List.pairwise_cons]
          refine ⟨?_, ihpw⟩
          intro b hb'
          obtain ⟨s2, l2, hb1, hb2, hb3, hb4, _, _, hb7, _⟩ := ihmem b hb'
          intro s1 e1 s2' e2' ha1 ha2 hb1' hb2'
          simp only [mkIssue] at ha1 ha2
          have hs1 : s1 = (start : Int) := (Option.some.inj ha1).symm
          have he1 : e1 = ((start + len : Nat) : Int) := (Option.some.inj ha2).symm
          have hs2 : s2' = ((s2 : Nat) : Int) := by
            rw [hb1] at hb1'
            exact (Option.some.inj hb1').symm
          have he2 : e2' = ((s2 + l2 : Nat) : Int) := by
            rw [hb2] at hb2'
            exact (Option.some.inj hb2').symm
          subst hs1 he1 hs2 he2
          -- the Nat ranges [start, start+len) and [s2, s2+l2) are disjoint
          have hdisj : start + len ≤ s2 ∨ s2 + l2 ≤ start := by
            by_contra hcon
            push_neg at hcon
            obtain ⟨hc1, hc2⟩ := hcon
            have hj := hb7 (max start s2) (le_max_right _ _) (by omega)
            exact hj (List.mem_append_right _
              (by rw [List.mem_range'_1]; constructor <;> omega))
          rcases hdisj with hd | hd
          · left; exact_mod_cast hd
          · right; exact_mod_cast hd

/-- **C1** — For every document and every list of raw issue records
(however duplicated or overlapping), the issues produced by the
allocator have pairwise non-intersecting `[startIndex, endIndex)`
ranges; and allocation is a left fold, so the issues resolved for a
prefix of the raw list are unaffected by any later raw issues — the one
earlier in input order keeps the contested range. -/
theorem processRawIssues_nonoverlap (raws l2 : List RawIssue)
    (content : List Char) (ts : Nat) :
    List.Pairwise IssuesDisjoint (processRawIssues raws content ts).issues ∧
    ∃ rest, (processRawIssues (raws ++ l2) content ts).issues =
      (processRawIssues raws content ts).issues ++ rest := by
  constructor
  · exact (allocGo_invariant content ts raws 0 []).2
  · show ∃ rest, allocGo content ts (raws ++ l2) 0 [] =
      allocGo content ts raws 0 [] ++ rest
    suffices key : ∀ (l1 : List RawIssue) (idx : Nat) (used : List Nat),
        ∃ idx2 used2, allocGo content ts (l1 ++ l2) idx used =
          allocGo content ts l1 idx used ++ allocGo content ts l2 idx2 used2 by
      obtain ⟨idx2, used2, hw⟩ := key raws 0 []
      exact ⟨allocGo content ts l2 idx2 used2, hw⟩
    intro l1
    induction l1 with
    | nil =>
      intro idx used
      exact ⟨idx, used, by simp [allocGo]⟩
    | cons r rest ih =>
      intro idx used
      rw [List.cons_append, allocGo, allocGo]
      split
      · exact ih (idx + 1) used
      · split
        · exact ih (idx + 1) used
        · rename_i hne start len hsl
          obtain ⟨idx2, used2, hw⟩ := ih (idx + 1) (used ++ List.range' start len)
          exact ⟨idx2, used2, by rw [hw, List.cons_append]⟩

/-- **C10** — Every issue the allocator emits is well-formed: it carries
offsets `some s`, `some (s+l)` with `0 ≤ s < s+l ≤ content.length`, the
claimed width `l` is exactly the width of a `findMatch` match for its
`originalText` (which can differ from `originalText.length` on the fuzzy
tier), its status is `pending`, and its line number is at least 1. -/
theorem processRawIssues_wellformed (raws : List RawIssue)
    (content : List Char) (ts : Nat) :
    ∀ i ∈ (processRawIssues raws content ts).issues,
    ∃ s l : Nat, i.startIndex = some (s : Int) ∧
      i.endIndex = some ((s + l : Nat) : Int) ∧ 1 ≤ l ∧
      s + l ≤ content.length ∧ i.status = .pending ∧ 1 ≤ i.line ∧
      ∃ p, findMatch content i.originalText p = some (s, l) := by
  intro i hi
  obtain ⟨s, l, h1, h2, h3, h4, h5, h6, _, h8⟩ :=
    (allocGo_invariant content ts raws 0 []).1 i hi
  exact ⟨s, l, h1, h2, h3, h4, h5, h6, h8⟩

/-! ## Claims C2, C3, C4: fix application -/

theorem forall₂_map_self {α : Type} {R : α → α → Prop} {f : α → α} :
    ∀ {l : List α}, (∀ a ∈ l, R a (f a)) → List.Forall₂ R l (l.map f) := by
  intro l
  induction l with
  | nil => intro _; simp
  | cons a l ih =>
    intro h
    simp only [List.map_cons]
    exact List.Forall₂.cons (h a (by simp)) (ih fun b hb => h b (by simp [hb]))

/-- **C2** — If the slice of the current document at the stored
`[startIndex, endIndex)` no longer equals the issue's recorded
`originalText`, `handleApplyFix` reports the sync-drift error, leaves
the document and the summary untouched, and maps the issue list so that
exactly the issues with the targeted id are re-marked `ignored` (all
their other fields, and all other issues, unchanged). -/
theorem handleApplyFix_drift (st : DashState) (issue cur : Issue)
    (s e : Int)
    (hfind : st.result.issues.find? (fun i => i.id == issue.id) = some cur)
    (hs : cur.startIndex = some s) (he : cur.endIndex = some e)
    (hdrift : intSlice st.analyzedContent s e ≠ cur.originalText) :
    (handleApplyFix st issue).analyzedContent = st.analyzedContent ∧
    (handleApplyFix st issue).errorMsg = some .syncDrift ∧
    (handleApplyFix st issue).result.summary = st.result.summary ∧
    (handleApplyFix st issue).result.issues =
      st.result.issues.map (fun i =>
        if i.id = issue.id then { i with status := .ignored } else i) := by
  unfold handleApplyFix
  rw [hfind]
  simp only [hs, he]
  rw [if_neg hdrift]
  refine ⟨rfl, rfl, rfl, ?_⟩
  apply List.map_congr_left
  intro i _
  by_cases h : i.id = issue.id
  · simp [h]
  · simp [h]

/-- Fixture: a pending CRITICAL issue claiming `[0, 1)` = `"x"` with a
two-character suggestion. -/
def wIssue : Issue :=
  ⟨"i", 1, "x".data, [], .CRITICAL, [], "yy".data, [], .pending,
    some 0, some 1⟩

/-- Fixture: a second pending issue claiming `[2, 3)` = `"b"`. -/
def wIssue2 : Issue :=
  ⟨"j", 1, "b".data, [], .WARNING, [], "z".data, [], .pending,
    some 2, some 3⟩

/-- Fixture: dashboard state over the document `"xab"`. -/
def wFixState : DashState :=
  ⟨"xab".data, ⟨[wIssue, wIssue2], ⟨1, 1, 0, 2⟩, [], 0⟩, none⟩

/-- Fixture: the same state after the document drifted out-of-band
(first character changed), issue coordinates untouched. -/
def wDriftState : DashState :=
  ⟨"Xab".data, ⟨[wIssue, wIssue2], ⟨1, 1, 0, 2⟩, [], 0⟩, none⟩

theorem handleApplyFix_drift_witness :
    (intSlice wDriftState.analyzedContent 0 1 ≠ wIssue.originalText) ∧
    ((handleApplyFix wDriftState wIssue).analyzedContent =
        wDriftState.analyzedContent ∧
      (handleApplyFix wDriftState wIssue).errorMsg = some .syncDrift ∧
      (handleApplyFix wDriftState wIssue).result.summary =
        wDriftState.result.summary ∧
      (handleApplyFix wDriftState wIssue).result.issues =
        wDriftState.result.issues.map (fun i =>
          if i.id = wIssue.id then { i with status := .ignored } else i)) :=
  ⟨by decide,
    handleApplyFix_drift wDriftState wIssue wIssue 0 1 (by rfl) (by rfl)
      (by rfl) (by decide)⟩

/-- **C3** — When the integrity check passes, `handleApplyFix` clears the
error banner and rewrites the issue list pointwise: the targeted id gets
status `fixed` (coordinates kept), every other issue whose `startIndex`
is strictly greater than the fixed issue's original `startIndex` has both
coordinates shifted by exactly
`lengthDiff = suggestion.length - (endIndex - startIndex)`, and every
other issue with `startIndex ≤` the fixed start is returned unchanged. -/
theorem handleApplyFix_success_shift (st : DashState) (issue cur : Issue)
    (s e : Int)
    (hfind : st.result.issues.find? (fun i => i.id == issue.id) = some cur)
    (hs : cur.startIndex = some s) (he : cur.endIndex = some e)
    (hok : intSlice st.analyzedContent s e = cur.originalText) :
    (handleApplyFix st issue).errorMsg = none ∧
    List.Forall₂ (fun old new =>
        (old.id = issue.id → new = { old with status := Status.fixed }) ∧
        (old.id ≠ issue.id → ∀ si ei : Int, old.startIndex = some si →
          old.endIndex = some ei →
          (s < si → new = { old with
            startIndex := some (si + ((cur.suggestion.length : Int) - (e - s))),
            endIndex := some (ei + ((cur.suggestion.length : Int) - (e - s))) }) ∧
          (si ≤ s → new = old)))
      st.result.issues (handleApplyFix st issue).result.issues := by
  unfold handleApplyFix
  rw [hfind]
  simp only [hs, he]
  rw [if_pos hok]
  refine ⟨rfl, ?_⟩
  apply forall₂_map_self
  intro i _
  have hcase : ∀ b : Bool, (i.id == issue.id) = b →
      ((i.id = issue.id) = (b = true)) := by
    intro b hb
    cases b
    · simp only [Bool.false_eq_true, eq_iff_iff, iff_false]
      intro hcon
      rw [hcon] at hb
      simp at hb
    · simp only [eq_iff_iff, iff_true]
      have := hb
      simpa using this
  constructor
  · intro hid
    have hb : (i.id == issue.id) = true := by simpa using hid
    simp [hb]
  · intro hid si ei hsi hei
    have hb : (i.id == issue.id) = false := by
      simpa using hid
    constructor
    · intro hlt
      simp only [hb, Bool.false_eq_true, if_false, hsi, hei,
        Option.getD_some]
      rw [if_pos hlt]
    · intro hle
      simp only [hb, Bool.false_eq_true, if_false, hsi]
      rw [if_neg (not_lt.mpr hle)]

theorem handleApplyFix_success_shift_witness :
    (intSlice wFixState.analyzedContent 0 1 = wIssue.originalText) ∧
    ((handleApplyFix wFixState wIssue).errorMsg = none ∧
      List.Forall₂ (fun old new =>
          (old.id = wIssue.id → new = { old with status := Status.fixed }) ∧
          (old.id ≠ wIssue.id → ∀ si ei : Int, old.startIndex = some si →
            old.endIndex = some ei →
            (0 < si → new = { old with
              startIndex := some (si + ((wIssue.suggestion.length : Int) - (1 - 0))),
              endIndex := some (ei + ((wIssue.suggestion.length : Int) - (1 - 0))) }) ∧
            (si ≤ 0 → new = old)))
        wFixState.result.issues (handleApplyFix wFixState wIssue).result.issues) :=
  ⟨by decide,
    handleApplyFix_success_shift wFixState wIssue wIssue 0 1 (by rfl) (by rfl)
      (by rfl) (by decide)⟩

/-- Counterexample to **C4** — a successful `handleApplyFix` whose
returned summary differs from `calculateSummary` recomputed over the
updated issue list (the source decrements one counter instead of
recomputing; `calculateSummary` counts issues of every status). -/
theorem handleApplyFix_summary_not_recomputed :
    (handleApplyFix wFixState wIssue).errorMsg = none ∧
    (handleApplyFix wFixState wIssue).result.summary ≠
      calculateSummary (handleApplyFix wFixState wIssue).result.issues :=
  ⟨by rfl, by decide⟩

/-- **C4 (amended)** — After a successful `handleApplyFix` the summary is
*not* recomputed from the issue list: the previous summary is kept, with
the bucket of the caller-passed issue's severity decremented by one
(floored at zero) when the stored issue's prior status was not already
`fixed`; `total` is never changed. -/
theorem handleApplyFix_summary_decrement (st : DashState) (issue cur : Issue)
    (s e : Int)
    (hfind : st.result.issues.find? (fun i => i.id == issue.id) = some cur)
    (hs : cur.startIndex = some s) (he : cur.endIndex = some e)
    (hok : intSlice st.analyzedContent s e = cur.originalText) :
    (handleApplyFix st issue).errorMsg = none ∧
    (handleApplyFix st issue).result.summary.total = st.result.summary.total ∧
    (handleApplyFix st issue).result.summary =
      (if cur.status = Status.fixed then st.result.summary
       else decrementSeverity st.result.summary issue.severity) := by
  unfold handleApplyFix
  rw [hfind]
  simp only [hs, he]
  rw [if_pos hok]
  refine ⟨rfl, ?_, ?_⟩
  · by_cases hst : cur.status = Status.fixed
    · simp [hst]
    · simp only [ne_eq, hst, not_false_iff, if_true]
      cases issue.severity <;> rfl
  · by_cases hst : cur.status = Status.fixed
    · simp [hst]
    · simp [hst]

theorem handleApplyFix_summary_decrement_witness :
    (intSlice wFixState.analyzedContent 0 1 = wIssue.originalText) ∧
    ((handleApplyFix wFixState wIssue).errorMsg = none ∧
      (handleApplyFix wFixState wIssue).result.summary.total =
        wFixState.result.summary.total ∧
      (handleApplyFix wFixState wIssue).result.summary =
        (if wIssue.status = Status.fixed then wFixState.result.summary
         else decrementSeverity wFixState.result.summary wIssue.severity)) :=
  ⟨by decide,
    handleApplyFix_summary_decrement wFixState wIssue wIssue 0 1 (by rfl)
      (by rfl) (by rfl) (by decide)⟩

/-! ## Claim C5: streaming extractor -/

theorem scanStep_acc (st : ScanState) (c : Char) :
    ∃ r, (scanStep st c).acc = st.acc ++ r := by
  simp only [scanStep]
  repeat' split
  all_goals first
    | exact ⟨[], (List.append_nil _).symm⟩
    | exact ⟨_, rfl⟩

theorem scan_foldl_acc : ∀ (l : List Char) (st : ScanState),
    ∃ r, (l.foldl scanStep st).acc = st.acc ++ r := by
  intro l
  induction l with
  | nil => intro st; exact ⟨[], by simp⟩
  | cons c l ih =>
    intro st
    obtain ⟨r1, h1⟩ := scanStep_acc st c
    obtain ⟨r2, h2⟩ := ih (scanStep st c)
    exact ⟨r1 ++ r2, by
      rw [List.foldl_cons, h2, h1, List.append_assoc]⟩

theorem strIndexOf_some_facts {b pat : List Char} {t m : Nat}
    (h : strIndexOf b pat t = some m) :
    substrAt b pat m ∧ min t b.length ≤ m ∧ m ≤ b.length ∧
      ∀ j, min t b.length ≤ j → j < m → ¬ substrAt b pat j := by
  unfold strIndexOf at h
  rw [Option.map_eq_some'] at h
  obtain ⟨⟨m', u⟩, hfh, hm⟩ := h
  obtain rfl : m' = m := hm
  obtain ⟨h1, h2, h3, h4⟩ := firstHit_eq_some.mp hfh
  refine ⟨?_, h1, h2, ?_⟩
  · by_contra hcon
    rw [if_neg hcon] at h3
    exact absurd h3 (by simp)
  · intro j hj1 hj2 hcon
    have := h4 j hj1 hj2
    rw [if_pos hcon] at this
    exact absurd this (by simp)

theorem strIndexOf_append {b s pat : List Char} {t m : Nat}
    (hpat : pat ≠ []) (ht : t ≤ b.length)
    (h : strIndexOf b pat t = some m) :
    strIndexOf (b ++ s) pat t = some m := by
  obtain ⟨hsub, hmin, hle, hleast⟩ := strIndexOf_some_facts h
  have hmlen : m + pat.length ≤ b.length := substrAt_le_length hpat hsub
  unfold strIndexOf
  have hblen : b.length ≤ (b ++ s).length := by simp
  rw [Option.map_eq_some']
  refine ⟨(m, ()), ?_, rfl⟩
  rw [firstHit_eq_some]
  have hmint : min t (b ++ s).length = t := by
    rw [min_eq_left]
    omega
  refine ⟨?_, by omega, ?_, ?_⟩
  · rw [hmint]
    rw [min_eq_left ht] at hmin
    exact hmin
  · rw [if_pos ((substrAt_append hmlen).mpr hsub)]
  · intro j hj1 hj2
    rw [hmint] at hj1
    have hjb : j + pat.length ≤ b.length := by
      have : 0 < pat.length := List.length_pos.mpr hpat
      omega
    rw [if_neg]
    intro hcon
    exact hleast j (by rw [min_eq_left ht]; exact hj1) hj2
      ((substrAt_append hjb).mp hcon)

/-- Fixture: a stream buffer holding two fully-closed issue objects and a
third truncated in the middle of a string value. -/
def demoBuffer : List Char :=
  "\x7b\"issues\": [\x7b\"a\": 1\x7d, \x7b\"b\": \"x\"\x7d, \x7b\"c\": \"tru".data

/-- **C5** — The extractor is monotone under stream growth: for every
buffer `b` and continuation `s`, `extractIssuesFromStream (b ++ s)`
extends `extractIssuesFromStream b` (so each call returns a superset of
the previous call's objects, and the function — a total Lean function —
never throws).  On a buffer ending mid-string inside the third object it
returns exactly the two objects that closed before the truncation
point. -/
theorem extractIssuesFromStream_spec :
    (∀ b s : List Char, ∃ rest,
      extractIssuesFromStream (b ++ s) = extractIssuesFromStream b ++ rest) ∧
    extractIssuesFromStream demoBuffer =
      [Json.obj [("a".data, Json.num "1".data)],
       Json.obj [("b".data, Json.str "x".data)]] := by
  constructor
  · intro b s
    by_cases h1 : ∃ m, strIndexOf b ("\"issues\"".data) 0 = some m
    · obtain ⟨m, hm⟩ := h1
      have hmarker : ("\"issues\"".data : List Char) ≠ [] := by decide
      have hm2 := strIndexOf_append (s := s) hmarker (by omega) hm
      obtain ⟨_, _, hmle, _⟩ := strIndexOf_some_facts hm
      by_cases h2 : ∃ a, strIndexOf b ['['] m = some a
      · obtain ⟨a, ha⟩ := h2
        have ha2 := strIndexOf_append (s := s) (by decide) hmle ha
        obtain ⟨hasub, _, _, _⟩ := strIndexOf_some_facts ha
        have ha1 : a + 1 ≤ b.length := by
          have := substrAt_le_length (p := ['[']) (by decide) hasub
          simpa using this
        unfold extractIssuesFromStream
        simp only [hm, hm2, ha, ha2]
        rw [List.drop_append_of_le_length ha1, List.foldl_append]
        exact scan_foldl_acc s _
      · push_neg at h2
        have h2' : strIndexOf b ['['] m = none :=
          Option.eq_none_iff_forall_not_mem.mpr (by
            intro a hmem
            exact h2 a hmem)
        have hb : extractIssuesFromStream b = [] := by
          unfold extractIssuesFromStream
          simp only [hm, h2']
        refine ⟨extractIssuesFromStream (b ++ s), ?_⟩
        rw [hb]
        simp
    · push_neg at h1
      have h1' : strIndexOf b ("\"issues\"".data) 0 = none :=
        Option.eq_none_iff_forall_not_mem.mpr (by
          intro a hmem
          exact h1 a hmem)
      have hb : extractIssuesFromStream b = [] := by
        unfold extractIssuesFromStream
        simp only [h1']
      refine ⟨extractIssuesFromStream (b ++ s), ?_⟩
      rw [hb]
      simp
  · rfl

/-! ## Claim C6: findMatch tier structure -/

theorem ite_some_eq_some {α : Type} {P : Prop} [Decidable P] {x y : α} :
    ((if P then some x else none) = some y) ↔ P ∧ x = y := by
  split
  · rename_i hp
    simp [hp]
  · rename_i hp
    simp [hp]

theorem ite_some_eq_none {α : Type} {P : Prop} [Decidable P] {x : α} :
    ((if P then some x else none) = none) ↔ ¬ P := by
  split
  · rename_i hp
    simp [hp]
  · rename_i hp
    simp [hp]

theorem wordMatchAt_beyond {c p : List Char} {j : Nat}
    (hj : c.length < j) : ¬ wordMatchAt c p j := by
  intro hcon
  have hb := hcon.1
  unfold boundaryAt wordAt at hb
  have hne : j ≠ 0 := by omega
  rw [if_neg hne] at hb
  rw [List.drop_eq_nil_of_le (by omega : c.length ≤ j - 1),
    List.drop_eq_nil_of_le (by omega : c.length ≤ j)] at hb
  simp at hb

theorem substrAt_beyond {c p : List Char} {j : Nat} (hp : p ≠ [])
    (hj : c.length < j) : ¬ substrAt c p j := by
  intro hcon
  have := substrAt_le_length hp hcon
  have : 0 < p.length := List.length_pos.mpr hp
  omega

theorem fuzzyLen_nil_none {parts : List (List Char)}
    (hne : parts ≠ []) (hw : ∀ w ∈ parts, w ≠ []) :
    fuzzyLen [] parts = none := by
  cases parts with
  | nil => exact absurd rfl hne
  | cons w ws =>
    have hwne : w ≠ [] := hw w (by simp)
    cases ws with
    | nil =>
      rw [fuzzyLen, if_neg]
      intro hcon
      exact hwne (hcon.symm.trans (List.take_nil))
    | cons w2 ws2 =>
      simp only [fuzzyLen]
      rw [if_neg]
      intro hcon
      exact hwne (hcon.symm.trans (List.take_nil))

/-- The full contract of `findMatch` stated declaratively: the
word-boundary tier, the raw-substring tier and the whitespace-normalized
fuzzy tier are attempted in strict priority order, each returning its
leftmost match at or after `startFrom`, and `none` is returned exactly
when all three tiers fail. -/
def FindMatchSpec (c p : List Char) (s : Nat) : Prop :=
  (findMatch c p s = none ↔
    ((∀ j, s ≤ j → ¬ wordMatchAt c p j) ∧
     (∀ j, s ≤ j → ¬ substrAt c p j) ∧
     (wsSplit p = [] ∨
       ∀ j, s ≤ j → fuzzyLen (c.drop j) (wsSplit p) = none))) ∧
  (∀ i l, findMatch c p s = some (i, l) →
    s ≤ i ∧
    ((wordMatchAt c p i ∧ l = p.length ∧
        ∀ j, s ≤ j → j < i → ¬ wordMatchAt c p j) ∨
     ((∀ j, s ≤ j → ¬ wordMatchAt c p j) ∧
        substrAt c p i ∧ l = p.length ∧
        ∀ j, s ≤ j → j < i → ¬ substrAt c p j) ∨
     ((∀ j, s ≤ j → ¬ wordMatchAt c p j) ∧
        (∀ j, s ≤ j → ¬ substrAt c p j) ∧
        fuzzyLen (c.drop i) (wsSplit p) = some l ∧
        ∀ j, s ≤ j → j < i → fuzzyLen (c.drop j) (wsSplit p) = none)))

theorem tier1_none_iff {c p : List Char} {s : Nat} :
    tier1 c p s = none ↔ ∀ j, s ≤ j → ¬ wordMatchAt c p j := by
  unfold tier1
  rw [firstHit_eq_none]
  constructor
  · intro hall j hj
    by_cases hjb : j ≤ c.length
    · have := hall j hj hjb
      rw [ite_some_eq_none] at this
      exact this
    · exact wordMatchAt_beyond (by omega)
  · intro hall j hj _
    rw [ite_some_eq_none]
    exact hall j hj

theorem tier1_some {c p : List Char} {s i l : Nat}
    (h : tier1 c p s = some (i, l)) :
    s ≤ i ∧ wordMatchAt c p i ∧ l = p.length ∧
      ∀ j, s ≤ j → j < i → ¬ wordMatchAt c p j := by
  unfold tier1 at h
  obtain ⟨h1, h2, h3, h4⟩ := firstHit_eq_some.mp h
  rw [ite_some_eq_some] at h3
  refine ⟨h1, h3.1, h3.2.symm, ?_⟩
  intro j hj hji
  have := h4 j hj hji
  rw [ite_some_eq_none] at this
  exact this

theorem tier2_none_iff {c p : List Char} {s : Nat}
    (h : p ≠ [] ∨ s ≤ c.length) :
    tier2 c p s = none ↔ ∀ j, s ≤ j → ¬ substrAt c p j := by
  unfold tier2
  rw [firstHit_eq_none]
  constructor
  · intro hall j hj
    by_cases hjb : j ≤ c.length
    · have := hall j (le_trans (min_le_left _ _) hj) hjb
      rw [ite_some_eq_none] at this
      exact this
    · by_cases hp : p = []
      · subst hp
        have hs : s ≤ c.length := by
          rcases h with hp | hs
          · exact absurd rfl hp
          · exact hs
        have := hall s (min_le_left _ _) hs
        rw [ite_some_eq_none] at this
        exact (this (by simp [substrAt])).elim
      · exact substrAt_beyond hp (by omega)
  · intro hall j hj hjb
    rw [ite_some_eq_none]
    rcases le_or_lt s c.length with hs | hs
    · rw [min_eq_left hs] at hj
      exact hall j hj
    · have hp : p ≠ [] := by
        rcases h with hp | hsc
        · exact hp
        · omega
      intro hcon
      have hle := substrAt_le_length hp hcon
      have h0 : 0 < p.length := List.length_pos.mpr hp
      rw [min_eq_right (le_of_lt hs)] at hj
      omega

theorem tier2_some {c p : List Char} {s i l : Nat}
    (h2 : p ≠ [] ∨ s ≤ c.length)
    (h : tier2 c p s = some (i, l)) :
    s ≤ i ∧ substrAt c p i ∧ l = p.length ∧
      ∀ j, s ≤ j → j < i → ¬ substrAt c p j := by
  unfold tier2 at h
  obtain ⟨ha, hb, hc, hd⟩ := firstHit_eq_some.mp h
  rw [ite_some_eq_some] at hc
  have hsle : s ≤ i := by
    rcases h2 with hp | hs
    · have := substrAt_le_length hp hc.1
      have h0 : 0 < p.length := List.length_pos.mpr hp
      rcases le_or_lt s c.length with hsc | hsc
      · rw [min_eq_left hsc] at ha
        exact ha
      · omega
    · rw [min_eq_left hs] at ha
      exact ha
  refine ⟨hsle, hc.1, hc.2.symm, ?_⟩
  intro j hj hji
  have := hd j (le_trans (min_le_left _ _) hj) hji
  rw [ite_some_eq_none] at this
  exact this

theorem tier3_none_iff {c p : List Char} {s : Nat} :
    tier3 c p s = none ↔
      (wsSplit p = [] ∨
        ∀ j, s ≤ j → fuzzyLen (c.drop j) (wsSplit p) = none) := by
  unfold tier3
  split
  · rename_i hsp
    simp [hsp]
  · rename_i hsp
    rw [firstHit_eq_none]
    constructor
    · intro hall
      right
      intro j hj
      by_cases hjb : j ≤ c.length
      · exact hall j hj hjb
      · rw [List.drop_eq_nil_of_le (by omega : c.length ≤ j)]
        exact fuzzyLen_nil_none hsp (fun w hw => (wsSplit_mem hw).1)
    · intro hall j hj _
      rcases hall with hnil | hall
      · exact absurd hnil hsp
      · exact hall j hj

theorem tier3_some {c p : List Char} {s i l : Nat}
    (h : tier3 c p s = some (i, l)) :
    s ≤ i ∧ fuzzyLen (c.drop i) (wsSplit p) = some l ∧
      ∀ j, s ≤ j → j < i → fuzzyLen (c.drop j) (wsSplit p) = none := by
  unfold tier3 at h
  split at h
  · exact absurd h (by simp)
  · obtain ⟨ha, hb, hc, hd⟩ := firstHit_eq_some.mp h
    exact ⟨ha, hc, fun j hj hji => hd j hj hji⟩

/-- **C6 (amended)** — `findMatch` attempts the three tiers in strict
priority order, each searching from `startFrom`, returns the winning
tier's leftmost match, never throws (it is a total function), and
returns `none` exactly when all three tiers fail.  The amendment: when
`searchPhrase` is empty *and* `startFrom` exceeds the document length,
JS `indexOf` clamps the start position and the raw tier reports a
zero-width match at the document's end, *before* `startFrom` — hence the
hypothesis excluding exactly that corner. -/
theorem findMatch_three_tiers (c p : List Char) (s : Nat)
    (h : p ≠ [] ∨ s ≤ c.length) : FindMatchSpec c p s := by
  constructor
  · unfold findMatch
    constructor
    · intro hnone
      split at hnone
      · exact absurd hnone (by simp)
      · rename_i ht1
        split at hnone
        · exact absurd hnone (by simp)
        · rename_i ht2
          exact ⟨tier1_none_iff.mp ht1, (tier2_none_iff h).mp ht2,
            tier3_none_iff.mp hnone⟩
    · rintro ⟨hn1, hn2, hn3⟩
      rw [tier1_none_iff.mpr hn1, (tier2_none_iff h).mpr hn2,
        tier3_none_iff.mpr hn3]
  · intro i l hsome
    unfold findMatch at hsome
    split at hsome
    · rename_i r ht1
      obtain rfl := Option.some.inj hsome
      obtain ⟨ha, hb, hc, hd⟩ := tier1_some ht1
      exact ⟨ha, Or.inl ⟨hb, hc, hd⟩⟩
    · rename_i ht1
      split at hsome
      · rename_i r ht2
        obtain rfl := Option.some.inj hsome
        obtain ⟨ha, hb, hc, hd⟩ := tier2_some h ht2
        exact ⟨ha, Or.inr (Or.inl ⟨tier1_none_iff.mp ht1, hb, hc, hd⟩)⟩
      · rename_i ht2
        obtain ⟨ha, hb, hc⟩ := tier3_some hsome
        exact ⟨ha, Or.inr (Or.inr ⟨tier1_none_iff.mp ht1,
          (tier2_none_iff h).mp ht2, hb, hc⟩)⟩

theorem findMatch_three_tiers_witness :
    (("ab".data : List Char) ≠ [] ∨ 1 ≤ ("ab ab".data : List Char).length) ∧
    FindMatchSpec "ab ab".data "ab".data 1 :=
  ⟨Or.inl (by decide),
    findMatch_three_tiers "ab ab".data "ab".data 1 (Or.inl (by decide))⟩

/-- Counterexample to **C6** as stated: with an empty `searchPhrase` and
`startFrom = 100` on the 3-character document `"abc"`, the raw
`indexOf` tier clamps the start position and `findMatch` returns the
zero-width match `(3, 0)` — a match strictly *before* `startFrom`,
contradicting "returns the first tier's first match at or after
startFrom". -/
theorem findMatch_clamp_counterexample :
    findMatch "abc".data [] 100 = some (3, 0) ∧ (3 : Nat) < 100 :=
  ⟨by decide, by decide⟩

/-! ## Claim C7: the concrete end-to-end scenario -/

/-- Fixture: the spec's concrete scenario document. -/
def c7doc : List Char :=
  "Our course guarantees success and is the best in India.".data

/-- Fixture: first raw issue of the scenario. -/
def c7raw1 : RawIssue :=
  ⟨"guarantees success".data, [], .CRITICAL, [],
    "supports your preparation".data, []⟩

/-- Fixture: second raw issue of the scenario. -/
def c7raw2 : RawIssue :=
  ⟨"best".data, [], .CRITICAL, [], "well-regarded".data, []⟩

/-- Counterexample to **C7** as stated: the allocator does not resolve
the scenario's issues to `(10,29)` and `(41,45)` — `"guarantees"` starts
at offset 11 (`"Our course "` is 11 characters long), so the first
resolved range is `(11,29)`. -/
theorem c7_offsets_counterexample :
    (processRawIssues [c7raw1, c7raw2] c7doc 0).issues.map
        (fun i => (i.startIndex, i.endIndex)) ≠
      [(some 10, some 29), (some 41, some 45)] := by decide

/-- **C7 (amended)** — On the scenario document the allocator resolves
the two raw issues to offsets `(11,29)` and `(41,45)` (the claimed start
10 was off by one), the summary is `{critical 2, warning 0, suggestion
0, total 2}`, and the clean content is exactly the claimed sentence. -/
theorem c7_scenario :
    (processRawIssues [c7raw1, c7raw2] c7doc 0).issues.map
        (fun i => (i.startIndex, i.endIndex)) =
      [(some 11, some 29), (some 41, some 45)] ∧
    (processRawIssues [c7raw1, c7raw2] c7doc 0).summary = ⟨2, 0, 0, 2⟩ ∧
    (processRawIssues [c7raw1, c7raw2] c7doc 0).cleanContent =
      ("Our course supports your preparation and is the " ++
        "well-regarded in India.").data :=
  ⟨by decide, by decide, by decide⟩

/-! ## Claim C10 witness fixtures -/

/-- Fixture: a small document for the well-formedness witness. -/
def wDoc : List Char := "hello world".data

/-- Fixture: a raw issue matched verbatim in `wDoc`. -/
def wRaw : RawIssue := ⟨"world".data, [], .WARNING, [], "planet".data, []⟩

theorem processRawIssues_wellformed_witness :
    ((processRawIssues [wRaw] wDoc 5).issues.headD wIssue ∈
      (processRawIssues [wRaw] wDoc 5).issues) ∧
    (∃ s l : Nat,
      ((processRawIssues [wRaw] wDoc 5).issues.headD wIssue).startIndex =
        some (s : Int) ∧
      ((processRawIssues [wRaw] wDoc 5).issues.headD wIssue).endIndex =
        some ((s + l : Nat) : Int) ∧
      1 ≤ l ∧ s + l ≤ wDoc.length ∧
      ((processRawIssues [wRaw] wDoc 5).issues.headD wIssue).status =
        .pending ∧
      1 ≤ ((processRawIssues [wRaw] wDoc 5).issues.headD wIssue).line ∧
      ∃ p, findMatch wDoc
        ((processRawIssues [wRaw] wDoc 5).issues.headD wIssue).originalText
          p = some (s, l)) :=
  ⟨by decide, processRawIssues_wellformed [wRaw] wDoc 5 _ (by decide)⟩

/-! ## Claim C8: duplicated phrase on a single-occurrence document -/

/-- Fixture: a duplicated raw issue whose phrase contains whitespace. -/
def c8raw : RawIssue := ⟨"a b".data, [], .CRITICAL, [], "X".data, []⟩

/-- Fixture: a document with exactly one verbatim occurrence of
`"a b"` but a second whitespace-collapsed occurrence `"a\nb"`. -/
def c8doc : List Char := "a b x a\nb".data

/-- Counterexample to **C8** as stated: `c8doc` contains exactly one
occurrence of the phrase `"a b"`, yet feeding the allocator two raw
issues with that phrase yields *two* resolved issues, not one — after
the collision the second issue's fuzzy tier matches the
whitespace-collapsed `"a\nb"` at offset 6. -/
theorem c8_duplicate_counterexample :
    ((List.range (c8doc.length + 1)).countP
        (fun i => decide (substrAt c8doc "a b".data i))) = 1 ∧
    (processRawIssues [c8raw, c8raw] c8doc 0).issues.map
        (fun i => (i.startIndex, i.endIndex)) =
      [(some 0, some 3), (some 6, some 9)] ∧
    (processRawIssues [c8raw, c8raw] c8doc 0).issues.length ≠ 1 :=
  ⟨by decide, by decide, by decide⟩

theorem wsSplitGo_nonws : ∀ (l cur : List Char),
    (∀ ch ∈ l, isWsChar ch = false) → (cur ≠ [] ∨ l ≠ []) →
    wsSplitGo cur l = [cur.reverse ++ l] := by
  intro l
  induction l with
  | nil =>
    intro cur _ hne
    rw [wsSplitGo]
    rcases hne with hc | hl
    · rw [if_neg hc]
      simp
    · exact absurd rfl hl
  | cons c rest ih =>
    intro cur hws hne
    rw [wsSplitGo]
    rw [if_neg (by simp [hws c (by simp)])]
    rw [ih (c :: cur) (fun ch h => hws ch (by simp [h])) (Or.inl (by simp))]
    simp

theorem wsSplit_singleton {p : List Char} (hp : p ≠ [])
    (hws : ∀ ch ∈ p, isWsChar ch = false) : wsSplit p = [p] := by
  unfold wsSplit
  rw [wsSplitGo_nonws p [] hws (Or.inr hp)]
  simp

theorem fuzzyLen_singleton {c p : List Char} {j : Nat} :
    fuzzyLen (c.drop j) [p] =
      if substrAt c p j then some p.length else none := by
  by_cases h : substrAt c p j
  · have h' : (c.drop j).take p.length = p := h
    rw [fuzzyLen, if_pos h', if_pos h]
  · have h' : ¬ ((c.drop j).take p.length = p) := h
    rw [fuzzyLen, if_neg h', if_neg h]

theorem unique_occ {content p : List Char} {q : Nat} (hp : p ≠ [])
    (hbnd : ∀ i, i < content.length + 1 → substrAt content p i → i = q) :
    ∀ i, substrAt content p i → i = q := by
  intro i hi
  have := substrAt_le_length hp hi
  have h0 : 0 < p.length := List.length_pos.mpr hp
  exact hbnd i (by omega) hi

theorem findMatch_unique_some {content p : List Char} {q : Nat}
    (hp : p ≠ []) (hq : substrAt content p q)
    (huniq : ∀ i, substrAt content p i → i = q)
    {pos : Nat} (hpos : pos ≤ q) :
    findMatch content p pos = some (q, p.length) := by
  have hqlen := substrAt_le_length hp hq
  unfold findMatch
  cases ht1 : tier1 content p pos with
  | some r =>
    obtain ⟨i, l⟩ := r
    obtain ⟨ha, hb, hc, hd⟩ := tier1_some ht1
    have hiq : i = q := huniq i hb.2.1
    subst hiq
    rw [hc]
  | none =>
    have ht2 : tier2 content p pos = some (q, p.length) := by
      unfold tier2
      rw [firstHit_eq_some]
      refine ⟨le_trans (min_le_left _ _) hpos, by omega, ?_, ?_⟩
      · rw [ite_some_eq_some]
        exact ⟨hq, rfl⟩
      · intro j _ hji
        rw [ite_some_eq_none]
        intro hcon
        have := huniq j hcon
        omega
    rw [ht2]

theorem findMatch_unique_none {content p : List Char} {q : Nat}
    (hp : p ≠ []) (hws : ∀ ch ∈ p, isWsChar ch = false)
    (huniq : ∀ i, substrAt content p i → i = q)
    {pos : Nat} (hpos : q < pos) :
    findMatch content p pos = none := by
  have hsub_none : ∀ j, pos ≤ j → ¬ substrAt content p j := by
    intro j hj hcon
    have := huniq j hcon
    omega
  have h1 : tier1 content p pos = none :=
    tier1_none_iff.mpr (fun j hj hcon => hsub_none j hj hcon.2.1)
  have h2 : tier2 content p pos = none :=
    (tier2_none_iff (Or.inl hp)).mpr hsub_none
  have h3 : tier3 content p pos = none :=
    tier3_none_iff.mpr (Or.inr (fun j hj => by
      rw [wsSplit_singleton hp hws, fuzzyLen_singleton,
        if_neg (hsub_none j hj)]))
  unfold findMatch
  rw [h1, h2, h3]

theorem collides_nil {found len : Nat} :
    collides [] found len = false := by
  unfold collides
  rw [List.any_eq_false]
  intro x _
  simp [List.contains]

theorem collides_self {q n : Nat} (hn : 0 < n) :
    collides (List.range' q n) q n = true := by
  unfold collides
  rw [List.any_eq_true]
  refine ⟨q, by rw [List.mem_range'_1]; omega, ?_⟩
  exact List.elem_iff.mpr (by rw [List.mem_range'_1]; omega)

theorem searchLoop_unique_first {content p : List Char} {q : Nat}
    (hp : p ≠ []) (hq : substrAt content p q)
    (huniq : ∀ i, substrAt content p i → i = q) :
    searchLoop content p [] 0 = some (q, p.length) := by
  have hqlen := substrAt_le_length hp hq
  have h0 : 0 < p.length := List.length_pos.mpr hp
  unfold searchLoop
  obtain ⟨n, hn⟩ : ∃ n, content.length - 0 = n + 1 :=
    ⟨content.length - 1, by omega⟩
  rw [hn, searchGo, if_pos (show 0 < content.length by omega),
    findMatch_unique_some hp hq huniq (Nat.zero_le q)]
  show (if collides [] q p.length then searchGo content p [] n (q + 1)
    else some (q, p.length)) = some (q, p.length)
  rw [if_neg (by rw [collides_nil]; simp)]

theorem searchGo_unique_used {content p : List Char} {q : Nat}
    (hp : p ≠ []) (hws : ∀ ch ∈ p, isWsChar ch = false)
    (hq : substrAt content p q)
    (huniq : ∀ i, substrAt content p i → i = q) :
    ∀ fuel pos, pos ≤ q + 1 →
    searchGo content p (List.range' q p.length) fuel pos = none := by
  have h0 : 0 < p.length := List.length_pos.mpr hp
  intro fuel
  induction fuel with
  | zero => intro pos _; rfl
  | succ fuel ih =>
    intro pos hpos
    rw [searchGo]
    by_cases hlt : pos < content.length
    · rw [if_pos hlt]
      rcases le_or_lt pos q with hle | hgt
      · rw [findMatch_unique_some hp hq huniq hle]
        show (if collides (List.range' q p.length) q p.length then
          searchGo content p (List.range' q p.length) fuel (q + 1)
          else some (q, p.length)) = none
        rw [if_pos (collides_self h0)]
        exact ih (q + 1) (le_refl _)
      · rw [findMatch_unique_none hp hws huniq hgt]
    · rw [if_neg hlt]

/-- **C8 (amended)** — For every document containing exactly one
occurrence of a *whitespace-free*, non-empty phrase, two raw issues both
carrying that phrase resolve to exactly one issue: the first (in input
order) claims the occurrence, and the second is dropped.  The amendment
restricts the phrase to contain no whitespace: for a phrase with inner
whitespace the fuzzy tier can resolve the duplicate at a second,
whitespace-collapsed location even though the document contains exactly
one verbatim occurrence (see the counterexample). -/
theorem duplicate_phrase_second_dropped (content p : List Char)
    (r1 r2 : RawIssue) (ts q : Nat)
    (hp : p ≠ []) (hws : ∀ ch ∈ p, isWsChar ch = false)
    (h1 : r1.originalText = p) (h2 : r2.originalText = p)
    (hq : substrAt content p q)
    (hbnd : ∀ i, i < content.length + 1 → substrAt content p i → i = q) :
    (processRawIssues [r1, r2] content ts).issues =
      [mkIssue content ts 0 r1 q p.length] := by
  have huniq : ∀ i, substrAt content p i → i = q := unique_occ hp hbnd
  have hfirst : searchLoop content p [] 0 = some (q, p.length) :=
    searchLoop_unique_first hp hq huniq
  have hsl2 : searchLoop content p (List.range' q p.length) 0 = none := by
    unfold searchLoop
    exact searchGo_unique_used hp hws hq huniq _ 0 (by omega)
  show allocGo content ts [r1, r2] 0 [] =
    [mkIssue content ts 0 r1 q p.length]
  simp only [allocGo, h1, h2, if_neg hp, hfirst, hsl2, List.nil_append]

theorem duplicate_phrase_second_dropped_witness :
    (("best".data : List Char) ≠ [] ∧
      (∀ ch ∈ ("best".data : List Char), isWsChar ch = false) ∧
      substrAt ("the best one".data) ("best".data) 4 ∧
      (∀ i, i < ("the best one".data : List Char).length + 1 →
        substrAt ("the best one".data) ("best".data) i → i = 4)) ∧
    (processRawIssues [c7raw2, c7raw2] ("the best one".data) 3).issues =
      [mkIssue ("the best one".data) 3 0 c7raw2 4 ("best".data).length] :=
  ⟨⟨by decide, by decide, by decide, by decide⟩,
    duplicate_phrase_second_dropped ("the best one".data) ("best".data)
      c7raw2 c7raw2 3 4 (by decide) (by decide) (by rfl) (by rfl)
      (by decide) (by decide)⟩

end PW
